import Mathlib

/-!
Verification development for the Vintage-Jeans-Marketplace ingestion and
trend-aggregation pipeline.

The definitions below are a shallow embedding of the Python source:

* `extract_price`, `extract_brand`, `calculate_engagement_score` embed the
  normalization helpers of `RedditService`
  (backend/research/services/marketplace/reddit_service.py);
* `save_listings_to_db` embeds the keyed upsert batch loop shared by
  `eBayService.save_listings_to_db`, `EtsyService.save_listings_to_db` and
  `RedditService.save_posts_to_db`;
* `calculate_platform_trends`, `calculate_brand_trends`,
  `calculate_overall_trends` and `generate_daily_trends` embed
  backend/tasks/analytics_tasks.py;
* `search_vintage_jeans` / `search_marketplace_posts` embed the adapter
  fetch wrappers and their exception handling.

Machine floats of the source are modelled by exact rationals (`ℚ`); the
arithmetic in scope (division by 100/50, `min`, sums, rounding to two
decimal places) is exact at these magnitudes, and Python's banker's
rounding is modelled by `roundHalfEven`.  Text is modelled as `List Char`
restricted to the ASCII behaviour of `str.lower`, `\d` and `\s`.
-/

/-- Decidable test for an ASCII decimal digit, the characters matched by the
regex class `\d` on ASCII text. -/
def isDig (c : Char) : Bool := '0' ≤ c && c ≤ '9'

/-- Decidable test for ASCII whitespace, the characters matched by the regex
class `\s` on ASCII text. -/
def isWs (c : Char) : Bool :=
  c = ' ' || c = '\t' || c = '\n' || c = '\r' || c = '\x0b' || c = '\x0c'

/-- Greedy match of the regex piece `\d{1,n}` (here used with `n = 3`):
takes the longest run of leading digits of length at most `n`, returning the
digits taken and the remaining characters. -/
def takeDigits : Nat → List Char → List Char × List Char
  | _, [] => ([], [])
  | 0, cs => ([], cs)
  | n + 1, c :: cs =>
    if isDig c then
      let p := takeDigits n cs
      (c :: p.1, p.2)
    else ([], c :: cs)

/-- Greedy match of the regex piece `(?:,\d{3})*`: consumes as many
comma-plus-three-digit groups as possible. -/
def takeGroups : List Char → List Char × List Char
  | ',' :: c1 :: c2 :: c3 :: cs =>
    if isDig c1 && isDig c2 && isDig c3 then
      let p := takeGroups cs
      (',' :: c1 :: c2 :: c3 :: p.1, p.2)
    else ([], ',' :: c1 :: c2 :: c3 :: cs)
  | cs => ([], cs)

/-- Match of the optional regex piece `(?:\.\d{2})?`: consumes a dot followed
by exactly two digits if present. -/
def takeFrac : List Char → List Char × List Char
  | '.' :: c1 :: c2 :: cs =>
    if isDig c1 && isDig c2 then (['.', c1, c2], cs) else ([], '.' :: c1 :: c2 :: cs)
  | cs => ([], cs)

/-- Attempt to match the price pattern `\$\s*(\d{1,3}(?:,\d{3})*(?:\.\d{2})?)`
of `RedditService._extract_price` at the head of `cs`; on success the
captured group is returned. -/
def matchPriceAt : List Char → Option (List Char)
  | '$' :: cs =>
    let ws := cs.dropWhile (fun c => isWs c)
    let p1 := takeDigits 3 ws
    if p1.1.isEmpty then none
    else
      let p2 := takeGroups p1.2
      let p3 := takeFrac p2.2
      some (p1.1 ++ p2.1 ++ p3.1)
  | _ => none

/-- Leftmost regex match, as `re.findall` scans: try the pattern at each
position from the left and return the first capture. -/
def findPrice : List Char → Option (List Char)
  | [] => none
  | c :: cs =>
    match matchPriceAt (c :: cs) with
    | some cap => some cap
    | none => findPrice cs

/-- Numeric value of a digit string, most significant digit first. -/
def digitsVal (cs : List Char) : Nat :=
  cs.foldl (fun a c => 10 * a + (c.toNat - 48)) 0

/-- Value that Python's `float` assigns to the comma-stripped capture: an
integer part and an optional fraction after the dot. -/
def parsePrice (cs : List Char) : ℚ :=
  let noComma := cs.filter (fun c => c ≠ ',')
  let intPart := noComma.takeWhile (fun c => c ≠ '.')
  match noComma.dropWhile (fun c => c ≠ '.') with
  | '.' :: fr => (digitsVal intPart : ℚ) + (digitsVal fr : ℚ) / ((10 : ℚ) ^ fr.length)
  | _ => (digitsVal intPart : ℚ)

/-- Embedding of `RedditService._extract_price`: first regex match wins,
commas are stripped before the numeric parse, and no match yields `None`. -/
def extract_price (text : List Char) : Option ℚ :=
  match findPrice text with
  | some cap => some (parsePrice cap)
  | none => none

/-- Decidable test that `pre` is a prefix of `l`. -/
def prefixAt : List Char → List Char → Bool
  | [], _ => true
  | _ :: _, [] => false
  | c :: cs, h :: hs => c = h && prefixAt cs hs

/-- Decidable substring containment, the semantics of Python's
`needle in haystack` on strings. -/
def containsSub : List Char → List Char → Bool
  | [], needle => needle.isEmpty
  | h :: t, needle => prefixAt needle (h :: t) || containsSub t needle

/-- ASCII lowercasing of a character list, the behaviour of `str.lower` on
ASCII text. -/
def lowerList (cs : List Char) : List Char := cs.map Char.toLower

/-- Fixed brand allow-list of `RedditService._extract_brand`, in source
order. -/
def brands : List (List Char) :=
  ["Levi\x27s", "Levis", "Lee", "Wrangler", "Calvin Klein",
   "Diesel", "G-Star", "Nudie", "APC", "Naked & Famous",
   "3sixteen", "Iron Heart", "Pure Blue Japan", "Momotaro",
   "Samurai", "Evisu", "Edwin", "Oni", "Studio D\x27Artisan"].map String.toList

/-- Loop body of `_extract_brand`: return the first brand of the list whose
lowercased name is contained in the (already lowercased) text. -/
def findBrand : List (List Char) → List Char → Option (List Char)
  | [], _ => none
  | b :: bs, tl => if containsSub tl (lowerList b) then some b else findBrand bs tl

/-- Embedding of `RedditService._extract_brand`: case-insensitive substring
match against the fixed allow-list, first match in list order wins. -/
def extract_brand (text : List Char) : Option (List Char) :=
  findBrand brands (lowerList text)

/-- Specification-side predicate: brand `b` occurs case-insensitively as a
substring of `text`. -/
def occursIn (b text : List Char) : Prop :=
  ∃ s u, lowerList text = s ++ lowerList b ++ u

/-- Floor of a rational as an integer, in a form the kernel can evaluate. -/
def ratFloor (q : ℚ) : ℤ := q.num / q.den

/-- Round half to even on rationals, the tie-breaking rule of Python's
`round`. -/
def roundHalfEven (q : ℚ) : ℤ :=
  let f := ratFloor q
  let r := q - f
  if r < 1 / 2 then f
  else if 1 / 2 < r then f + 1
  else if f % 2 = 0 then f else f + 1

/-- Rounding to two decimal places, the `round(x, 2)` of the source. -/
def round2 (q : ℚ) : ℚ := (roundHalfEven (q * 100) : ℚ) / 100

/-- Embedding of `RedditService._calculate_engagement_score`: a weighted
combination of capped upvote and comment signals, rounded to two decimal
places.  The upvote score of a submission is an integer (it may be
negative); the comment count is a natural number. -/
def calculate_engagement_score (score : ℤ) (num_comments : ℕ) : ℚ :=
  round2 (min ((score : ℚ) / 100) 1 * 70 + min ((num_comments : ℚ) / 50) 1 * 30)

/-- Parsed listing dictionary as passed to the batch save loops.  The listing
fields other than the upsert key are abstracted into a `payload` of an
arbitrary type `α` (title, price, images, ...), since the save loop copies
them verbatim. -/
structure Post (α : Type) where
  platform : String
  external_id : String
  payload : α
deriving DecidableEq, Repr

/-- Row of the `marketplace_listings` table: the stored listing together with
its primary key `id` and the timestamp columns stamped by the save loop. -/
structure StoredRow (α : Type) where
  id : ℕ
  platform : String
  external_id : String
  payload : α
  created_at : ℕ
  updated_at : ℕ
  last_synced_at : ℕ
deriving DecidableEq, Repr

/-- State of the listings table: rows in insertion order, plus the next
fresh primary key. -/
structure Store (α : Type) where
  rows : List (StoredRow α)
  nextId : ℕ
deriving DecidableEq, Repr

/-- Upsert key match used by the existence check
`.eq("platform", plat).eq("external_id", eid)`. -/
def matchKey {α : Type} (plat eid : String) (r : StoredRow α) : Prop :=
  r.platform = plat ∧ r.external_id = eid

instance {α : Type} (plat eid : String) (r : StoredRow α) :
    Decidable (matchKey plat eid r) := by
  unfold matchKey; infer_instance

/-- Result rows of the `select("id")` existence query for an upsert key. -/
def selectByKey {α : Type} (plat eid : String) (rows : List (StoredRow α)) :
    List (StoredRow α) :=
  rows.filter (fun r => decide (matchKey plat eid r))

/-- Row transformation of `update(listing).eq("id", i)`: the row with primary
key `i` receives every field of the listing dictionary (which has been
stamped with fresh `updated_at` / `last_synced_at`); other rows are
untouched.  The update dictionary carries no `created_at` key, so that
column is preserved. -/
def applyUpdate {α : Type} (p : Post α) (now : ℕ) (i : ℕ) (r : StoredRow α) :
    StoredRow α :=
  if r.id = i then
    { r with
      platform := p.platform
      external_id := p.external_id
      payload := p.payload
      updated_at := now
      last_synced_at := now }
  else r

/-- One iteration of the batch save loop on the success path: look the key
up, update the first returned row if one exists, insert a fresh row
otherwise.  The returned flag is `true` on the insert path. -/
def upsertOne {α : Type} (plat : String) (now : ℕ) (st : Store α) (p : Post α) :
    Store α × Bool :=
  match selectByKey plat p.external_id st.rows with
  | [] =>
    ({ rows := st.rows ++
        [{ id := st.nextId
           platform := p.platform
           external_id := p.external_id
           payload := p.payload
           created_at := now
           updated_at := now
           last_synced_at := now }]
       nextId := st.nextId + 1 }, true)
  | r0 :: _ =>
    ({ rows := st.rows.map (applyUpdate p now r0.id), nextId := st.nextId }, false)

/-- Aggregate counters returned by the batch save loops. -/
structure SaveCounts where
  added : ℕ
  updated : ℕ
  errors : ℕ
deriving DecidableEq, Repr

/-- Batch loop of `save_listings_to_db` / `save_posts_to_db`, with the
position in the batch threaded through as `i`.  The oracle `fails` tells
which iterations raise inside the `try` block (a store-write failure); the
`except` arm counts the error and the loop continues with the next listing
and the store unchanged by that iteration. -/
def saveAux {α : Type} (plat : String) (fails : ℕ → Bool) (now : ℕ) :
    List (Post α) → ℕ → Store α → Store α × SaveCounts
  | [], _, st => (st, ⟨0, 0, 0⟩)
  | p :: ps, i, st =>
    if fails i then
      let r := saveAux plat fails now ps (i + 1) st
      (r.1, { r.2 with errors := r.2.errors + 1 })
    else
      let u := upsertOne plat now st p
      let r := saveAux plat fails now ps (i + 1) u.1
      if u.2 then (r.1, { r.2 with added := r.2.added + 1 })
      else (r.1, { r.2 with updated := r.2.updated + 1 })

/-- Embedding of the batch save operation (`eBayService.save_listings_to_db`,
`EtsyService.save_listings_to_db`, `RedditService.save_posts_to_db`): each
listing of the batch is upserted by `(platform, external_id)`, per-listing
failures are counted and skipped, and the aggregate counts are returned. -/
def save_listings_to_db {α : Type} (plat : String) (fails : ℕ → Bool) (now : ℕ)
    (posts : List (Post α)) (st : Store α) : Store α × SaveCounts :=
  saveAux plat fails now posts 0 st

/-- Failure oracle of a run in which every store write succeeds. -/
def noFail : ℕ → Bool := fun _ => false

/-- Listing row as read back from the `marketplace_listings` table by
`generate_daily_trends`.  Only the columns inspected by the aggregation are
modelled; nullable columns are `Option` (a Python `None`). -/
structure DbListing where
  platform : String
  brand : Option String
  price : Option ℚ
  trend_score : Option ℚ
deriving DecidableEq, Repr

/-- Price sample of a listing group, as built by the comprehension
`[l.get("price", 0) for l in group if l.get("price")]`: the Python truthiness
filter keeps exactly the non-null, non-zero prices. -/
def pricesOf (ls : List DbListing) : List ℚ :=
  ls.filterMap (fun l =>
    match l.price with
    | some p => if p = 0 then none else some p
    | none => none)

/-- Python `min(xs)` as used on a non-empty price list, with the source's
`if prices else 0` fallback folded in. -/
def listMin : List ℚ → ℚ
  | [] => 0
  | p :: ps => ps.foldl min p

/-- Python `max(xs)` as used on a non-empty price list, with the source's
`if prices else 0` fallback folded in. -/
def listMax : List ℚ → ℚ
  | [] => 0
  | p :: ps => ps.foldl max p

/-- Average with the source's `if xs else 0` policy for an empty sample. -/
def listAvg (ps : List ℚ) : ℚ :=
  if ps.isEmpty then 0 else ps.sum / ps.length

/-- Python `sum` over a list of nullable numbers, as in
`sum([l.get("trend_score", 0) for l in group])`: the column is present in
every row, so a null value reaches `sum` and raises `TypeError`, modelled by
`none`. -/
def sumOpt : List (Option ℚ) → Option ℚ
  | [] => some 0
  | v :: vs =>
    match v, sumOpt vs with
    | some x, some s => some (x + s)
    | _, _ => none

/-- Grouped summary statistics making up one value of the trends
dictionaries of `analytics_tasks.py`. -/
structure TrendStats where
  total_listings : ℕ
  avg_price : ℚ
  min_price : ℚ
  max_price : ℚ
  total_sales : ℚ
  engagement_score : ℚ
deriving DecidableEq, Repr

/-- Statistics computed for one platform or brand group (the dict literal of
`_calculate_platform_trends` / `_calculate_brand_trends`).  The engagement
mean divides a sum over the raw `trend_score` column by the group size, so a
null score in the group raises (`none`). -/
def statsForGroup (ls : List DbListing) : Option TrendStats :=
  match sumOpt (ls.map (fun l => l.trend_score)) with
  | none => none
  | some s =>
    some
      { total_listings := ls.length
        avg_price := listAvg (pricesOf ls)
        min_price := listMin (pricesOf ls)
        max_price := listMax (pricesOf ls)
        total_sales := 0
        engagement_score := s / ls.length }

/-- Platform allow-list of `_calculate_platform_trends`, in source order. -/
def trendPlatforms : List String := ["ebay", "etsy", "reddit"]

/-- Loop of `_calculate_platform_trends` over the platform allow-list: each
platform with a non-empty group contributes one keyed entry, in list order;
an exception while computing a group's statistics aborts the whole
computation. -/
def platformTrendsAux (ls : List DbListing) :
    List String → Option (List (String × TrendStats))
  | [] => some []
  | p :: ps =>
    let group := ls.filter (fun l => decide (l.platform = p))
    if group.isEmpty then platformTrendsAux ls ps
    else
      match statsForGroup group, platformTrendsAux ls ps with
      | some st, some rest => some ((p, st) :: rest)
      | _, _ => none

/-- Embedding of `_calculate_platform_trends`. -/
def calculate_platform_trends (ls : List DbListing) :
    Option (List (String × TrendStats)) :=
  platformTrendsAux ls trendPlatforms

/-- Loop body of the brand grouping of `_calculate_brand_trends`: a listing
whose `brand` is null or the empty string (Python falsy) is skipped, a new
brand opens a new key at the end in first-occurrence order. -/
def brandStep (ks : List String) (l : DbListing) : List String :=
  match l.brand with
  | some b => if b ≠ "" ∧ b ∉ ks then ks ++ [b] else ks
  | none => ks

/-- Brand keys in first-occurrence order, as the `brands` dict of
`_calculate_brand_trends` is built. -/
def brandKeys (ls : List DbListing) : List String :=
  ls.foldl brandStep []

/-- Listings grouped under one brand key. -/
def brandGroup (ls : List DbListing) (b : String) : List DbListing :=
  ls.filter (fun l => decide (l.brand = some b))

/-- Loop of `_calculate_brand_trends` over the grouped brand keys. -/
def brandTrendsAux (ls : List DbListing) :
    List String → Option (List (String × TrendStats))
  | [] => some []
  | b :: bs =>
    match statsForGroup (brandGroup ls b), brandTrendsAux ls bs with
    | some st, some rest => some ((b, st) :: rest)
    | _, _ => none

/-- Embedding of `_calculate_brand_trends`. -/
def calculate_brand_trends (ls : List DbListing) :
    Option (List (String × TrendStats)) :=
  brandTrendsAux ls (brandKeys ls)

/-- Embedding of `_calculate_overall_trends`: price and engagement samples
are both comprehensions with a truthiness filter, so null (and zero) values
are dropped before summing and this computation never raises. -/
def calculate_overall_trends (ls : List DbListing) : TrendStats :=
  let scores := ls.filterMap (fun l =>
    match l.trend_score with
    | some s => if s = 0 then none else some s
    | none => none)
  { total_listings := ls.length
    avg_price := listAvg (pricesOf ls)
    min_price := listMin (pricesOf ls)
    max_price := listMax (pricesOf ls)
    total_sales := 0
    engagement_score := listAvg scores }

/-- Record written to the `marketplace_trends` table by
`_save_trend_record`; the timestamp and period columns are not modelled. -/
structure TrendRecord where
  category : String
  platform : String
  total_listings : ℕ
  avg_price : ℚ
  min_price : ℚ
  max_price : ℚ
  total_sales : ℚ
  engagement_score : ℚ
deriving DecidableEq, Repr

/-- Record dictionary built by `_save_trend_record(platform, category, ...)`,
with the argument order of the source call sites preserved. -/
def save_trend_record (platform category : String) (st : TrendStats) :
    TrendRecord :=
  { category := category
    platform := platform
    total_listings := st.total_listings
    avg_price := st.avg_price
    min_price := st.min_price
    max_price := st.max_price
    total_sales := st.total_sales
    engagement_score := st.engagement_score }

/-- Embedding of `generate_daily_trends` restricted to its observable output:
the sequence of trend records passed to `_save_trend_record` for the window.
An empty window returns `{"status": "no_data"}` before any aggregation, so
no record is written; an exception inside the `try` block (a `TypeError`
from a null `trend_score` in a platform or brand group) is caught by the
task, which returns `{"status": "failed"}` with no record written, modelled
by `none`. -/
def generate_daily_trends (ls : List DbListing) : Option (List TrendRecord) :=
  if ls.isEmpty then some []
  else
    match calculate_platform_trends ls, calculate_brand_trends ls with
    | some pts, some bts =>
      some
        (pts.map (fun pr => save_trend_record pr.1 "platform" pr.2) ++
         bts.map (fun br => save_trend_record "all" br.1 br.2) ++
         [save_trend_record "all" "overall" (calculate_overall_trends ls)])
    | _, _ => none

/-- Outcome of the vendor-client portion of an adapter fetch (token
acquisition plus search call): either the items of a well-formed response,
or a raised exception carrying its message.  A response lacking the
expected collection attribute is modelled as `ok []`, matching the
source's `hasattr` guard. -/
def VendorOutcome (ρ : Type) := Except String (List ρ)

/-- Embedding of `eBayService.search_vintage_jeans`: the whole vendor
interaction runs inside `try`, and the `except` arm logs and returns the
empty list, so the function always returns normally.  The result is wrapped
in `Except` so that a raise surfaced to the caller would be visible as
`.error`. -/
def search_vintage_jeans {ρ Λ : Type} (parse : ρ → Λ) (vendor : VendorOutcome ρ) :
    Except String (List Λ) :=
  match vendor with
  | .error _ => .ok []
  | .ok items => .ok (items.map parse)

/-- Embedding of `RedditService.search_marketplace_posts`: identical
exception structure to the eBay fetch — any raise from the PRAW client or
the per-submission parse is caught and the empty list is returned. -/
def search_marketplace_posts {ρ Λ : Type} (parse : ρ → Λ) (vendor : VendorOutcome ρ) :
    Except String (List Λ) :=
  match vendor with
  | .error _ => .ok []
  | .ok subs => .ok (subs.map parse)

/-- Computable floor agrees with the floor of the rational order. -/
theorem ratFloor_eq (q : ℚ) : ratFloor q = ⌊q⌋ := Rat.floor_def.symm

/-- Unfolding of `roundHalfEven` through the order-theoretic floor. -/
theorem roundHalfEven_def (q : ℚ) :
    roundHalfEven q =
      if q - ⌊q⌋ < 1 / 2 then ⌊q⌋
      else if 1 / 2 < q - ⌊q⌋ then ⌊q⌋ + 1
      else if ⌊q⌋ % 2 = 0 then ⌊q⌋ else ⌊q⌋ + 1 := by
  unfold roundHalfEven
  rw [ratFloor_eq]

/-- Rounding fixes the integers. -/
theorem roundHalfEven_intCast (n : ℤ) : roundHalfEven (n : ℚ) = n := by
  rw [roundHalfEven_def]
  norm_num

/-- Rounding never exceeds the floor by more than one. -/
theorem roundHalfEven_le (q : ℚ) : roundHalfEven q ≤ ⌊q⌋ + 1 := by
  rw [roundHalfEven_def]
  split_ifs <;> omega

/-- Rounding is bounded below by the floor. -/
theorem le_roundHalfEven (q : ℚ) : ⌊q⌋ ≤ roundHalfEven q := by
  rw [roundHalfEven_def]
  split_ifs <;> omega

/-- Round half to even is monotone. -/
theorem roundHalfEven_mono {x y : ℚ} (h : x ≤ y) :
    roundHalfEven x ≤ roundHalfEven y := by
  have hf : ⌊x⌋ ≤ ⌊y⌋ := Int.floor_le_floor h
  rcases lt_or_eq_of_le hf with hlt | heq
  · calc roundHalfEven x ≤ ⌊x⌋ + 1 := roundHalfEven_le x
    _ ≤ ⌊y⌋ := by omega
    _ ≤ roundHalfEven y := le_roundHalfEven y
  · have hr : x - ⌊x⌋ ≤ y - ⌊y⌋ := by
      rw [← heq]; linarith
    rw [roundHalfEven_def, roundHalfEven_def, ← heq]
    split_ifs <;> first | omega | linarith

/-- Rounding to two decimal places is monotone. -/
theorem round2_mono {x y : ℚ} (h : x ≤ y) : round2 x ≤ round2 y := by
  unfold round2
  have := roundHalfEven_mono (mul_le_mul_of_nonneg_right h (by norm_num : (0:ℚ) ≤ 100))
  have hc : ((roundHalfEven (x * 100) : ℤ) : ℚ) ≤ ((roundHalfEven (y * 100) : ℤ) : ℚ) := by
    exact_mod_cast this
  exact div_le_div_of_nonneg_right hc (by norm_num)

/-- Rounding to two decimal places fixes the integers. -/
theorem round2_intCast (n : ℤ) : round2 (n : ℚ) = n := by
  unfold round2
  rw [show ((n : ℚ) * 100) = ((n * 100 : ℤ) : ℚ) by push_cast; ring, roundHalfEven_intCast]
  push_cast
  field_simp

/-- Rounding to two decimal places preserves nonnegativity. -/
theorem round2_lower {q : ℚ} (h0 : 0 ≤ q) : 0 ≤ round2 q := by
  have := round2_mono h0
  rw [show (0 : ℚ) = ((0 : ℤ) : ℚ) by norm_num] at this
  rw [round2_intCast] at this
  exact_mod_cast this

/-- Rounding to two decimal places preserves the upper bound 100. -/
theorem round2_upper {q : ℚ} (h1 : q ≤ 100) : round2 q ≤ 100 := by
  have := round2_mono h1
  rw [show (100 : ℚ) = ((100 : ℤ) : ℚ) by norm_num] at this
  rw [round2_intCast] at this
  exact_mod_cast this

/-- Claim C5, counterexample: the claim quantifies over every integer upvote
score, but a sufficiently negative upvote score drives the engagement score
far below 0 — `_calculate_engagement_score` on a submission with score
-1000 and no comments returns -700, outside [0, 100]. -/
theorem c5_engagement_score_range_cex :
    calculate_engagement_score (-1000) 0 = -700 ∧
      ¬(0 ≤ calculate_engagement_score (-1000) 0 ∧
        calculate_engagement_score (-1000) 0 ≤ 100) := by
  have h : calculate_engagement_score (-1000) 0 = -700 := by
    unfold calculate_engagement_score
    rw [show (min (((-1000 : ℤ) : ℚ) / 100) 1) = -10 by rw [min_def]; norm_num,
        show (min (((0 : ℕ) : ℚ) / 50) 1) = 0 by rw [min_def]; norm_num,
        show ((-10 : ℚ) * 70 + 0 * 30) = ((-700 : ℤ) : ℚ) by norm_num,
        round2_intCast]
    norm_num
  refine ⟨h, ?_⟩
  rw [h]
  norm_num

/-- Claim C5 (amended): for every non-negative upvote score and every
comment count, the engagement score
min(upvotes/100, 1)*70 + min(comment_count/50, 1)*30, rounded to two decimal
places, lies in [0, 100].  (The original claim also admitted negative upvote
scores, which `c5_engagement_score_range_cex` refutes.) -/
theorem c5_engagement_score_range (s : ℤ) (c : ℕ) (hs : 0 ≤ s) :
    0 ≤ calculate_engagement_score s c ∧ calculate_engagement_score s c ≤ 100 := by
  unfold calculate_engagement_score
  have ha0 : (0 : ℚ) ≤ min ((s : ℚ) / 100) 1 :=
    le_min (div_nonneg (by exact_mod_cast hs) (by norm_num)) (by norm_num)
  have ha1 : min ((s : ℚ) / 100) 1 ≤ 1 := min_le_right _ _
  have hb0 : (0 : ℚ) ≤ min ((c : ℚ) / 50) 1 :=
    le_min (div_nonneg (by positivity) (by norm_num)) (by norm_num)
  have hb1 : min ((c : ℚ) / 50) 1 ≤ 1 := min_le_right _ _
  constructor
  · exact round2_lower (by nlinarith)
  · exact round2_upper (by nlinarith)

/-- Witness for `c5_engagement_score_range` at score 50 with 10 comments. -/
theorem c5_engagement_score_range_witness :
    (0 : ℤ) ≤ 50 ∧
      (0 ≤ calculate_engagement_score 50 10 ∧
        calculate_engagement_score 50 10 ≤ 100) :=
  ⟨by norm_num, c5_engagement_score_range 50 10 (by norm_num)⟩

/-- Claim C6: the engagement score is monotonically non-decreasing in the
upvote score with the comment count fixed, and in the comment count with the
upvote score fixed. -/
theorem c6_engagement_score_monotone :
    (∀ (u1 u2 : ℤ) (c : ℕ), u1 ≤ u2 →
        calculate_engagement_score u1 c ≤ calculate_engagement_score u2 c) ∧
      ∀ (u : ℤ) (c1 c2 : ℕ), c1 ≤ c2 →
        calculate_engagement_score u c1 ≤ calculate_engagement_score u c2 := by
  constructor
  · intro u1 u2 c h
    unfold calculate_engagement_score
    apply round2_mono
    have hm : min ((u1 : ℚ) / 100) 1 ≤ min ((u2 : ℚ) / 100) 1 :=
      min_le_min (div_le_div_of_nonneg_right (by exact_mod_cast h) (by norm_num)) le_rfl
    nlinarith
  · intro u c1 c2 h
    unfold calculate_engagement_score
    apply round2_mono
    have hm : min ((c1 : ℚ) / 50) 1 ≤ min ((c2 : ℚ) / 50) 1 :=
      min_le_min (div_le_div_of_nonneg_right (by exact_mod_cast h) (by norm_num)) le_rfl
    nlinarith

/-- Witness for `c6_engagement_score_monotone` at scores 1 ≤ 5 and comment
counts 7 ≤ 9. -/
theorem c6_engagement_score_monotone_witness :
    calculate_engagement_score 1 7 ≤ calculate_engagement_score 5 7 ∧
      calculate_engagement_score 5 7 ≤ calculate_engagement_score 5 9 :=
  ⟨c6_engagement_score_monotone.1 1 5 7 (by norm_num),
   c6_engagement_score_monotone.2 5 7 9 (by norm_num)⟩

/-- Sum of the three aggregate counters over the batch loop, with the batch
position generalized. -/
theorem saveAux_counts {α : Type} (plat : String) (fails : ℕ → Bool) (now : ℕ) :
    ∀ (posts : List (Post α)) (i : ℕ) (st : Store α),
      (saveAux plat fails now posts i st).2.added +
        (saveAux plat fails now posts i st).2.updated +
        (saveAux plat fails now posts i st).2.errors = posts.length := by
  intro posts
  induction posts with
  | nil => intro i st; rfl
  | cons p ps ih =>
    intro i st
    rcases hfi : fails i with _ | _
    · have h := ih (i + 1) (upsertOne plat now st p).1
      rcases hu : (upsertOne plat now st p).2 with _ | _ <;>
        simp only [saveAux, hfi, Bool.false_eq_true, if_false, hu, if_true,
          List.length_cons] <;> omega
    · have h := ih (i + 1) st
      simp only [saveAux, hfi, if_true, List.length_cons]
      omega

/-- Claim C9: a store-write failure for a single listing does not abort the
batch.  First conjunct: whatever iterations fail, the returned counts
satisfy added + updated + errors = batch size.  Second conjunct: when the
first listing's write fails, the store is left exactly as the remaining
listings alone leave it, the failure adds one to the error count, and the
added/updated counts are those of the remaining listings — the batch
continues. -/
theorem c9_batch_failures_counted {α : Type} (plat : String) (fails : ℕ → Bool)
    (now : ℕ) :
    (∀ (posts : List (Post α)) (st : Store α),
        (save_listings_to_db plat fails now posts st).2.added +
          (save_listings_to_db plat fails now posts st).2.updated +
          (save_listings_to_db plat fails now posts st).2.errors = posts.length) ∧
      ∀ (p : Post α) (ps : List (Post α)) (st : Store α), fails 0 = true →
        (save_listings_to_db plat fails now (p :: ps) st).1 =
            (saveAux plat fails now ps 1 st).1 ∧
          (save_listings_to_db plat fails now (p :: ps) st).2.errors =
            (saveAux plat fails now ps 1 st).2.errors + 1 ∧
          (save_listings_to_db plat fails now (p :: ps) st).2.added =
            (saveAux plat fails now ps 1 st).2.added ∧
          (save_listings_to_db plat fails now (p :: ps) st).2.updated =
            (saveAux plat fails now ps 1 st).2.updated := by
  constructor
  · intro posts st
    exact saveAux_counts plat fails now posts 0 st
  · intro p ps st h0
    unfold save_listings_to_db
    simp [saveAux, h0]

/-- Witness for `c9_batch_failures_counted`: a two-listing batch over `ℕ`
payloads in which the first write fails. -/
theorem c9_batch_failures_counted_witness :
    (save_listings_to_db "ebay" (fun i => decide (i = 0)) 3
          [Post.mk "ebay" "a" (1 : ℕ), Post.mk "ebay" "b" 2]
          (Store.mk [] 0)).2.added +
        (save_listings_to_db "ebay" (fun i => decide (i = 0)) 3
          [Post.mk "ebay" "a" (1 : ℕ), Post.mk "ebay" "b" 2]
          (Store.mk [] 0)).2.updated +
        (save_listings_to_db "ebay" (fun i => decide (i = 0)) 3
          [Post.mk "ebay" "a" (1 : ℕ), Post.mk "ebay" "b" 2]
          (Store.mk [] 0)).2.errors = 2 ∧
      (save_listings_to_db "ebay" (fun i => decide (i = 0)) 3
          [Post.mk "ebay" "a" (1 : ℕ), Post.mk "ebay" "b" 2]
          (Store.mk [] 0)).2.errors =
        (saveAux "ebay" (fun i => decide (i = 0)) 3 [Post.mk "ebay" "b" 2] 1
            (Store.mk [] 0)).2.errors + 1 :=
  ⟨(c9_batch_failures_counted "ebay" (fun i => decide (i = 0)) 3).1
      [Post.mk "ebay" "a" (1 : ℕ), Post.mk "ebay" "b" 2] (Store.mk [] 0),
   ((c9_batch_failures_counted "ebay" (fun i => decide (i = 0)) 3).2
      (Post.mk "ebay" "a" (1 : ℕ)) [Post.mk "ebay" "b" 2] (Store.mk [] 0)
      (by decide)).2.1⟩

/-- Characterization of the prefix test. -/
theorem prefixAt_iff (n : List Char) : ∀ h : List Char,
    prefixAt n h = true ↔ ∃ t, h = n ++ t := by
  induction n with
  | nil => intro h; simp [prefixAt]
  | cons c cs ih =>
    intro h
    cases h with
    | nil => simp [prefixAt]
    | cons x xs =>
      simp only [prefixAt, Bool.and_eq_true, decide_eq_true_eq, ih xs]
      constructor
      · rintro ⟨rfl, t, rfl⟩
        exact ⟨t, rfl⟩
      · rintro ⟨t, ht⟩
        injection ht with h1 h2
        exact ⟨h1.symm, t, h2⟩

/-- Characterization of substring containment as an append decomposition. -/
theorem containsSub_iff (n : List Char) : ∀ h : List Char,
    containsSub h n = true ↔ ∃ s t, h = s ++ n ++ t := by
  intro h
  induction h with
  | nil =>
    simp only [containsSub, List.isEmpty_iff]
    constructor
    · rintro rfl
      exact ⟨[], [], rfl⟩
    · rintro ⟨s, t, hst⟩
      rcases List.append_eq_nil.mp (List.append_eq_nil.mp hst.symm).1 with ⟨_, h2⟩
      exact h2
  | cons x xs ih =>
    simp only [containsSub, Bool.or_eq_true, prefixAt_iff, ih]
    constructor
    · rintro (⟨t, ht⟩ | ⟨s, t, hst⟩)
      · exact ⟨[], t, by simp [ht]⟩
      · exact ⟨x :: s, t, by simp [hst]⟩
    · rintro ⟨s, t, hst⟩
      cases s with
      | nil => exact Or.inl ⟨t, by simpa using hst⟩
      | cons y ys =>
        injection hst with h1 h2
        exact Or.inr ⟨ys, t, h2⟩

/-- Failure characterization of the brand loop: no list entry matches. -/
theorem findBrand_eq_none (tl : List Char) : ∀ bs : List (List Char),
    findBrand bs tl = none ↔ ∀ b ∈ bs, containsSub tl (lowerList b) = false := by
  intro bs
  induction bs with
  | nil => simp [findBrand]
  | cons b bs ih =>
    rcases hc : containsSub tl (lowerList b) with _ | _
    · simp [findBrand, hc, ih]
    · simp [findBrand, hc]

/-- Success characterization of the brand loop: the returned entry matches
and every entry before it in list order does not. -/
theorem findBrand_eq_some (tl : List Char) : ∀ (bs : List (List Char)) (b : List Char),
    findBrand bs tl = some b ↔
      ∃ l1 l2, bs = l1 ++ b :: l2 ∧ containsSub tl (lowerList b) = true ∧
        ∀ b2 ∈ l1, containsSub tl (lowerList b2) = false := by
  intro bs
  induction bs with
  | nil => simp [findBrand]
  | cons x xs ih =>
    intro b
    rcases hc : containsSub tl (lowerList x) with _ | _
    · have hstep : findBrand (x :: xs) tl = findBrand xs tl := by
        simp [findBrand, hc]
      rw [hstep, ih b]
      constructor
      · rintro ⟨l1, l2, rfl, h1, h2⟩
        refine ⟨x :: l1, l2, rfl, h1, ?_⟩
        intro b2 hb2
        rcases List.mem_cons.mp hb2 with rfl | hb2
        · exact hc
        · exact h2 b2 hb2
      · rintro ⟨l1, l2, hsplit, h1, h2⟩
        cases l1 with
        | nil =>
          injection hsplit with hx _
          subst hx
          rw [hc] at h1
          exact absurd h1 (by simp)
        | cons y ys =>
          injection hsplit with hy hrest
          subst hy
          exact ⟨ys, l2, hrest, h1, fun b2 hb2 => h2 b2 (List.mem_cons_of_mem _ hb2)⟩
    · have hstep : findBrand (x :: xs) tl = some x := by
        simp [findBrand, hc]
      rw [hstep]
      constructor
      · intro h
        injection h with h
        subst h
        exact ⟨[], xs, rfl, hc, by simp⟩
      · rintro ⟨l1, l2, hsplit, h1, h2⟩
        cases l1 with
        | nil =>
          injection hsplit with hx _
          rw [hx]
        | cons y ys =>
          injection hsplit with hy hrest
          subst hy
          exact absurd hc (by simp [h2 x (by simp)])

/-- Occurrence as a substring coincides with the decidable containment
test on lowercased text. -/
theorem occursIn_iff (b t : List Char) :
    occursIn b t ↔ containsSub (lowerList t) (lowerList b) = true := by
  rw [containsSub_iff]
  rfl

/-- Claim C7: brand extraction returns the first brand of the fixed
allow-list, in list order, whose name occurs case-insensitively as a
substring of the text, and returns null exactly when no brand of the list
occurs in the text. -/
theorem c7_brand_extraction (t : List Char) :
    (extract_brand t = none ↔ ∀ b ∈ brands, ¬ occursIn b t) ∧
      ∀ b, extract_brand t = some b ↔
        ∃ l1 l2, brands = l1 ++ b :: l2 ∧ occursIn b t ∧
          ∀ b2 ∈ l1, ¬ occursIn b2 t := by
  constructor
  · rw [extract_brand, findBrand_eq_none]
    constructor
    · intro h b hb
      rw [occursIn_iff, h b hb]
      simp
    · intro h b hb
      have := h b hb
      rw [occursIn_iff] at this
      simp only [Bool.not_eq_true] at this
      exact this
  · intro b
    rw [extract_brand, findBrand_eq_some]
    constructor
    · rintro ⟨l1, l2, hs, h1, h2⟩
      refine ⟨l1, l2, hs, (occursIn_iff b t).mpr h1, ?_⟩
      intro b2 hb2
      rw [occursIn_iff, h2 b2 hb2]
      simp
    · rintro ⟨l1, l2, hs, h1, h2⟩
      refine ⟨l1, l2, hs, (occursIn_iff b t).mp h1, ?_⟩
      intro b2 hb2
      have := h2 b2 hb2
      rw [occursIn_iff] at this
      simp only [Bool.not_eq_true] at this
      exact this

/-- Claim C2, counterexample: the claim requires a fetch whose vendor client
raises to surface an `AdapterError` to the caller, but both adapter fetches
wrap the vendor interaction in a catch-all handler and return the empty
list normally — no error value reaches the caller. -/
theorem c2_adapter_error_cex :
    search_vintage_jeans (fun r : ℕ => r)
        (Except.error "vendor unreachable") = Except.ok [] ∧
      search_marketplace_posts (fun r : ℕ => r)
        (Except.error "received 401 unauthorized") = Except.ok [] ∧
      (search_vintage_jeans (fun r : ℕ => r)
        (Except.error "vendor unreachable")).isOk = true :=
  ⟨rfl, rfl, rfl⟩

/-- Claim C2 (amended): for every adapter fetch in which the vendor client
raises (unreachable, unauthenticated, malformed payload), the fetch catches
the exception, logs it, and returns the empty list to the caller; no
`AdapterError` is surfaced.  (The original claim asserted the error is
surfaced, which `c2_adapter_error_cex` refutes; no `AdapterError` type
exists in the repository.) -/
theorem c2_adapter_error_swallowed {ρ Λ : Type} (parse : ρ → Λ) (e : String) :
    search_vintage_jeans parse (Except.error e) = Except.ok [] ∧
      search_marketplace_posts parse (Except.error e) = Except.ok [] :=
  ⟨rfl, rfl⟩

/-- Field equations of a successfully computed group statistic. -/
theorem statsForGroup_fields {g : List DbListing} {st : TrendStats}
    (h : statsForGroup g = some st) :
    st.total_listings = g.length ∧ st.avg_price = listAvg (pricesOf g) ∧
      st.min_price = listMin (pricesOf g) ∧ st.max_price = listMax (pricesOf g) := by
  unfold statsForGroup at h
  rcases hs : sumOpt (g.map (fun l => l.trend_score)) with _ | s
  · rw [hs] at h; exact absurd h (by simp)
  · rw [hs] at h
    injection h with h
    subst h
    exact ⟨rfl, rfl, rfl, rfl⟩

/-- Entries of the platform trends dictionary: every key comes from the
traversed platform list, and its statistics are those of the key's filter
group. -/
theorem platformTrendsAux_mem (ls : List DbListing) : ∀ (plist : List String)
    (ts : List (String × TrendStats)), platformTrendsAux ls plist = some ts →
    ∀ pr ∈ ts, pr.1 ∈ plist ∧
      statsForGroup (ls.filter (fun l => decide (l.platform = pr.1))) = some pr.2 := by
  intro plist
  induction plist with
  | nil =>
    intro ts h pr hpr
    unfold platformTrendsAux at h
    injection h with h
    subst h
    exact absurd hpr (by simp)
  | cons p ps ih =>
    intro ts h pr hpr
    unfold platformTrendsAux at h
    by_cases hg : (ls.filter (fun l => decide (l.platform = p))).isEmpty
    · rw [if_pos hg] at h
      have := ih ts h pr hpr
      exact ⟨List.mem_cons_of_mem _ this.1, this.2⟩
    · rw [if_neg hg] at h
      rcases hs : statsForGroup (ls.filter (fun l => decide (l.platform = p))) with _ | st
      · rw [hs] at h; exact absurd h (by simp)
      · rw [hs] at h
        rcases hrest : platformTrendsAux ls ps with _ | rest
        · rw [hrest] at h; exact absurd h (by simp)
        · rw [hrest] at h
          injection h with h
          subst h
          rcases List.mem_cons.mp hpr with rfl | hpr2
          · exact ⟨by simp, hs⟩
          · have := ih rest hrest pr hpr2
            exact ⟨List.mem_cons_of_mem _ this.1, this.2⟩

/-- Entries of the brand trends dictionary: every key comes from the grouped
key list, and its statistics are those of the key's brand group. -/
theorem brandTrendsAux_mem (ls : List DbListing) : ∀ (keys : List String)
    (ts : List (String × TrendStats)), brandTrendsAux ls keys = some ts →
    ∀ br ∈ ts, br.1 ∈ keys ∧ statsForGroup (brandGroup ls br.1) = some br.2 := by
  intro keys
  induction keys with
  | nil =>
    intro ts h br hbr
    unfold brandTrendsAux at h
    injection h with h
    subst h
    exact absurd hbr (by simp)
  | cons b bs ih =>
    intro ts h br hbr
    unfold brandTrendsAux at h
    rcases hs : statsForGroup (brandGroup ls b) with _ | st
    · rw [hs] at h; exact absurd h (by simp)
    · rw [hs] at h
      rcases hrest : brandTrendsAux ls bs with _ | rest
      · rw [hrest] at h; exact absurd h (by simp)
      · rw [hrest] at h
        injection h with h
        subst h
        rcases List.mem_cons.mp hbr with rfl | hbr2
        · exact ⟨by simp, hs⟩
        · have := ih rest hrest br hbr2
          exact ⟨List.mem_cons_of_mem _ this.1, this.2⟩

/-- Every brand key originates from some listing of the window. -/
theorem brandKeys_mem {b : String} {ls : List DbListing} :
    b ∈ brandKeys ls → ∃ l ∈ ls, l.brand = some b := by
  unfold brandKeys
  suffices h : ∀ (acc : List String), b ∈ ls.foldl brandStep acc →
      b ∈ acc ∨ ∃ l ∈ ls, l.brand = some b by
    intro hb
    rcases h [] hb with hin | hex
    · exact absurd hin (by simp)
    · exact hex
  induction ls with
  | nil => intro acc hb; exact Or.inl hb
  | cons l ls ih =>
    intro acc hb
    simp only [List.foldl_cons] at hb
    have hsub : ∀ y ∈ brandStep acc l, y ∈ acc ∨ l.brand = some y := by
      intro y hy
      unfold brandStep at hy
      rcases hstep : l.brand with _ | x
      · rw [hstep] at hy
        exact Or.inl hy
      · rw [hstep] at hy
        by_cases hcond : x ≠ "" ∧ x ∉ acc
        · simp only [if_pos hcond] at hy
          rcases List.mem_append.mp hy with hin | hin
          · exact Or.inl hin
          · have : y = x := by simpa using hin
            subst this
            exact Or.inr rfl
        · simp only [if_neg hcond] at hy
          exact Or.inl hy
    rcases ih _ hb with hin | hex
    · rcases hsub b hin with hin2 | hbr
      · exact Or.inl hin2
      · exact Or.inr ⟨l, by simp, hbr⟩
    · rcases hex with ⟨l2, hl2, hb2⟩
      exact Or.inr ⟨l2, List.mem_cons_of_mem _ hl2, hb2⟩

/-- Listings whose price column is null contribute no price sample. -/
theorem pricesOf_eq_nil {ls : List DbListing} (h : ∀ l ∈ ls, l.price = none) :
    pricesOf ls = [] := by
  unfold pricesOf
  rw [List.filterMap_eq_nil_iff]
  intro l hl
  rw [h l hl]

/-- Claim C8: price statistics over a group whose price set is empty because
every price is null are 0 rather than an error — this holds for the overall
statistics, for the empty window (which produces no records and no error),
and for every record the aggregation writes for such a window. -/
theorem c8_empty_price_stats (ls : List DbListing)
    (hnull : ∀ l ∈ ls, l.price = none) :
    pricesOf ls = [] ∧
      (calculate_overall_trends ls).avg_price = 0 ∧
      (calculate_overall_trends ls).min_price = 0 ∧
      (calculate_overall_trends ls).max_price = 0 ∧
      generate_daily_trends [] = some [] ∧
      ∀ recs, generate_daily_trends ls = some recs →
        ∀ r ∈ recs, r.avg_price = 0 ∧ r.min_price = 0 ∧ r.max_price = 0 := by
  have hnil : pricesOf ls = [] := pricesOf_eq_nil hnull
  have hfilter : ∀ p : DbListing → Bool, pricesOf (ls.filter p) = [] := by
    intro p
    exact pricesOf_eq_nil fun l hl => hnull l (List.mem_of_mem_filter hl)
  refine ⟨hnil, ?_, ?_, ?_, rfl, ?_⟩
  · show listAvg (pricesOf ls) = 0
    rw [hnil]; rfl
  · show listMin (pricesOf ls) = 0
    rw [hnil]; rfl
  · show listMax (pricesOf ls) = 0
    rw [hnil]; rfl
  · intro recs h r hr
    unfold generate_daily_trends at h
    by_cases hemp : ls.isEmpty
    · rw [if_pos hemp] at h
      injection h with h
      subst h
      exact absurd hr (by simp)
    · rw [if_neg hemp] at h
      rcases hp : calculate_platform_trends ls with _ | pts
      · rw [hp] at h; exact absurd h (by simp)
      rcases hb : calculate_brand_trends ls with _ | bts
      · rw [hp, hb] at h; exact absurd h (by simp)
      rw [hp, hb] at h
      injection h with h
      subst h
      rcases List.mem_append.mp hr with hr1 | hr2
      · rcases List.mem_append.mp hr1 with hrp | hrb
        · rcases List.mem_map.mp hrp with ⟨pr, hpr, rfl⟩
          have hmem := platformTrendsAux_mem ls trendPlatforms pts hp pr hpr
          have hf := statsForGroup_fields hmem.2
          have hz := hfilter (fun l => decide (l.platform = pr.1))
          rw [hz] at hf
          exact ⟨hf.2.1, hf.2.2.1, hf.2.2.2⟩
        · rcases List.mem_map.mp hrb with ⟨br, hbr, rfl⟩
          have hmem := brandTrendsAux_mem ls (brandKeys ls) bts hb br hbr
          have hf := statsForGroup_fields hmem.2
          have hz : pricesOf (brandGroup ls br.1) = [] := hfilter _
          rw [hz] at hf
          exact ⟨hf.2.1, hf.2.2.1, hf.2.2.2⟩
      · have : r = save_trend_record "all" "overall" (calculate_overall_trends ls) := by
          simpa using hr2
        subst this
        refine ⟨?_, ?_, ?_⟩
        · show listAvg (pricesOf ls) = 0
          rw [hnil]; rfl
        · show listMin (pricesOf ls) = 0
          rw [hnil]; rfl
        · show listMax (pricesOf ls) = 0
          rw [hnil]; rfl

/-- Witness for `c8_empty_price_stats`: a one-listing window whose only
price is null. -/
theorem c8_empty_price_stats_witness :
    pricesOf [⟨"etsy", none, none, some 2⟩] = [] ∧
      (calculate_overall_trends [⟨"etsy", none, none, some 2⟩]).avg_price = 0 ∧
      (calculate_overall_trends [⟨"etsy", none, none, some 2⟩]).min_price = 0 :=
  ⟨(c8_empty_price_stats [⟨"etsy", none, none, some 2⟩] (by decide)).1,
   (c8_empty_price_stats [⟨"etsy", none, none, some 2⟩] (by decide)).2.1,
   (c8_empty_price_stats [⟨"etsy", none, none, some 2⟩] (by decide)).2.2.1⟩

/-- Platform trends are unchanged when listings outside the platform
allow-list are removed, for any traversal list drawn from the allow-list. -/
theorem platformTrendsAux_filter (ls : List DbListing) : ∀ plist : List String,
    (∀ p ∈ plist, p ∈ trendPlatforms) →
      platformTrendsAux ls plist =
        platformTrendsAux
          (ls.filter (fun l => decide (l.platform ∈ trendPlatforms))) plist := by
  intro plist
  induction plist with
  | nil => intro _; rfl
  | cons p ps ih =>
    intro hsub
    have hgroup : ls.filter (fun l => decide (l.platform = p)) =
        (ls.filter (fun l => decide (l.platform ∈ trendPlatforms))).filter
          (fun l => decide (l.platform = p)) := by
      rw [List.filter_filter]
      apply List.filter_congr
      intro l _
      by_cases hl : l.platform = p
      · have hmem : p ∈ trendPlatforms := hsub p (by simp)
        simp [hl, hmem]
      · simp [hl]
    unfold platformTrendsAux
    rw [← hgroup, ih (fun q hq => hsub q (List.mem_cons_of_mem _ hq))]

/-- Claim C10: the per-platform grouping covers only the fixed allow-list
ebay/etsy/reddit.  First conjunct: every key of the computed platform trends
is in the allow-list, so a listing of any other platform never receives a
per-platform record.  Second conjunct: deleting all listings whose platform
is outside the allow-list leaves the platform trends unchanged, so such
listings contribute to no per-platform record.  Third conjunct: every
listing, whatever its platform, is counted by the overall statistics.
Fourth conjunct: every listing with a brand belongs to that brand's group,
whatever its platform. -/
theorem c10_platform_allowlist (ls : List DbListing) :
    (∀ ts, calculate_platform_trends ls = some ts →
        ∀ pr ∈ ts, pr.1 ∈ trendPlatforms) ∧
      calculate_platform_trends ls =
        calculate_platform_trends
          (ls.filter (fun l => decide (l.platform ∈ trendPlatforms))) ∧
      (calculate_overall_trends ls).total_listings = ls.length ∧
      ∀ l ∈ ls, ∀ b, l.brand = some b → l ∈ brandGroup ls b := by
  refine ⟨?_, ?_, rfl, ?_⟩
  · intro ts h pr hpr
    exact (platformTrendsAux_mem ls trendPlatforms ts h pr hpr).1
  · exact platformTrendsAux_filter ls trendPlatforms (fun p hp => hp)
  · intro l hl b hb
    exact List.mem_filter.mpr ⟨hl, by simp [hb]⟩

/-- Witness for `c10_platform_allowlist`: a window holding one listing of the
platform `manual`, outside the allow-list, which produces no platform trend
entry yet is counted by the overall statistics. -/
theorem c10_platform_allowlist_witness :
    (∀ pr ∈ ([] : List (String × TrendStats)), pr.1 ∈ trendPlatforms) ∧
      (calculate_overall_trends
        [⟨"manual", some "Lee", some 5, some 1⟩]).total_listings =
        [(⟨"manual", some "Lee", some 5, some 1⟩ : DbListing)].length :=
  ⟨(c10_platform_allowlist [⟨"manual", some "Lee", some 5, some 1⟩]).1 [] rfl,
   (c10_platform_allowlist [⟨"manual", some "Lee", some 5, some 1⟩]).2.2.1⟩

/-- Claim C3, counterexample: the per-platform grouping writes records whose
`category` column is the literal string "platform" (with the platform name
in the `platform` column), because `_save_trend_record(platform, "platform",
...)` passes the literal as the `category` argument.  For a window holding
one eBay listing of brand Lee, the first written record has category
"platform", which is not a platform name, not a brand of any listing of the
window, and not "overall". -/
theorem c3_trend_category_cex :
    (generate_daily_trends [⟨"ebay", some "Lee", some 10, some 5⟩]).map
        (fun recs => recs.map (fun r => (r.category, r.platform))) =
      some [("platform", "ebay"), ("Lee", "all"), ("overall", "all")] ∧
      "platform" ∉ trendPlatforms ∧
      (∀ l ∈ [(⟨"ebay", some "Lee", some 10, some 5⟩ : DbListing)],
          l.platform ≠ "platform" ∧ l.brand ≠ some "platform") ∧
      "platform" ≠ "overall" :=
  ⟨rfl, by decide, by decide, by decide⟩

/-- Claim C3 (amended): every trend record written by the aggregator has a
category that is either the literal "platform" (per-platform grouping, with
the platform name in the `platform` column, which is in the allow-list), a
brand name of some listing of the window (per-brand grouping, platform
column "all"), or the literal "overall" (platform column "all").  (The
original claim said the per-platform records carry the platform name as
category, which `c3_trend_category_cex` refutes.) -/
theorem c3_trend_categories (ls : List DbListing) (recs : List TrendRecord)
    (h : generate_daily_trends ls = some recs) :
    ∀ r ∈ recs,
      (r.category = "platform" ∧ r.platform ∈ trendPlatforms) ∨
        (∃ l ∈ ls, l.brand = some r.category ∧ r.platform = "all") ∨
        (r.category = "overall" ∧ r.platform = "all") := by
  intro r hr
  unfold generate_daily_trends at h
  by_cases hemp : ls.isEmpty
  · rw [if_pos hemp] at h
    injection h with h
    subst h
    exact absurd hr (by simp)
  · rw [if_neg hemp] at h
    rcases hp : calculate_platform_trends ls with _ | pts
    · rw [hp] at h; exact absurd h (by simp)
    rcases hb : calculate_brand_trends ls with _ | bts
    · rw [hp, hb] at h; exact absurd h (by simp)
    rw [hp, hb] at h
    injection h with h
    subst h
    rcases List.mem_append.mp hr with hr1 | hr2
    · rcases List.mem_append.mp hr1 with hrp | hrb
      · rcases List.mem_map.mp hrp with ⟨pr, hpr, rfl⟩
        exact Or.inl ⟨rfl, (platformTrendsAux_mem ls trendPlatforms pts hp pr hpr).1⟩
      · rcases List.mem_map.mp hrb with ⟨br, hbr, rfl⟩
        have hkey := (brandTrendsAux_mem ls (brandKeys ls) bts hb br hbr).1
        rcases brandKeys_mem hkey with ⟨l, hl, hlb⟩
        exact Or.inr (Or.inl ⟨l, hl, hlb, rfl⟩)
    · have : r = save_trend_record "all" "overall" (calculate_overall_trends ls) := by
        simpa using hr2
      subst this
      exact Or.inr (Or.inr ⟨rfl, rfl⟩)

/-- Witness for `c3_trend_categories`: the first record written for a window
holding one Reddit listing. -/
theorem c3_trend_categories_witness :
    ((((generate_daily_trends [⟨"reddit", none, none, some 1⟩]).getD []).getD 0
          ⟨"", "", 0, 0, 0, 0, 0, 0⟩).category = "platform" ∧
        (((generate_daily_trends [⟨"reddit", none, none, some 1⟩]).getD []).getD 0
          ⟨"", "", 0, 0, 0, 0, 0, 0⟩).platform ∈ trendPlatforms) ∨
      (∃ l ∈ [(⟨"reddit", none, none, some 1⟩ : DbListing)],
          l.brand = some ((((generate_daily_trends
            [⟨"reddit", none, none, some 1⟩]).getD []).getD 0
              ⟨"", "", 0, 0, 0, 0, 0, 0⟩).category) ∧
          (((generate_daily_trends [⟨"reddit", none, none, some 1⟩]).getD []).getD 0
            ⟨"", "", 0, 0, 0, 0, 0, 0⟩).platform = "all") ∨
      ((((generate_daily_trends [⟨"reddit", none, none, some 1⟩]).getD []).getD 0
            ⟨"", "", 0, 0, 0, 0, 0, 0⟩).category = "overall" ∧
        (((generate_daily_trends [⟨"reddit", none, none, some 1⟩]).getD []).getD 0
          ⟨"", "", 0, 0, 0, 0, 0, 0⟩).platform = "all") :=
  c3_trend_categories [⟨"reddit", none, none, some 1⟩]
    ((generate_daily_trends [⟨"reddit", none, none, some 1⟩]).getD []) rfl
    (((generate_daily_trends [⟨"reddit", none, none, some 1⟩]).getD []).getD 0
      ⟨"", "", 0, 0, 0, 0, 0, 0⟩)
    (by exact List.Mem.head _)

/-- Updating a row never changes its primary key. -/
theorem applyUpdate_id {α : Type} (p : Post α) (now i : ℕ) (r : StoredRow α) :
    (applyUpdate p now i r).id = r.id := by
  unfold applyUpdate
  split_ifs <;> rfl

/-- Mapping a function that fixes every member of a list fixes the list. -/
theorem map_eq_self_of {α : Type} {l : List α} {f : α → α}
    (h : ∀ a ∈ l, f a = a) : l.map f = l := by
  induction l with
  | nil => rfl
  | cons x xs ih =>
    rw [List.map_cons, h x (by simp), ih fun a ha => h a (List.mem_cons_of_mem _ ha)]

/-- A keyed update preserves the sequence of primary keys. -/
theorem applyUpdate_ids {α : Type} (p : Post α) (now i : ℕ)
    (rows : List (StoredRow α)) :
    (rows.map (applyUpdate p now i)).map (fun r => r.id) =
      rows.map (fun r => r.id) := by
  rw [List.map_map]
  apply List.map_congr_left
  intro r _
  exact applyUpdate_id p now i r

/-- Rows with a different primary key are untouched by the update. -/
theorem applyUpdate_of_ne {α : Type} (p : Post α) (now i : ℕ)
    {r : StoredRow α} (h : r.id ≠ i) : applyUpdate p now i r = r := by
  unfold applyUpdate
  rw [if_neg h]

/-- The row with the targeted primary key receives the listing fields and
fresh `updated_at` / `last_synced_at`, keeping `id` and `created_at`. -/
theorem applyUpdate_of_eq {α : Type} (p : Post α) (now : ℕ)
    (r : StoredRow α) :
    applyUpdate p now r.id r =
      { r with
        platform := p.platform
        external_id := p.external_id
        payload := p.payload
        updated_at := now
        last_synced_at := now } := by
  unfold applyUpdate
  rw [if_pos rfl]

/-- When the existence query returns exactly one row, re-running it after
the keyed update returns exactly the updated row, provided primary keys are
distinct and the updated listing carries the queried key. -/
theorem selectByKey_update {α : Type} (plat e : String) (p : Post α) (now : ℕ)
    (hp : p.platform = plat) (he : p.external_id = e) :
    ∀ (rows : List (StoredRow α)) (r0 : StoredRow α),
      (rows.map (fun r => r.id)).Nodup →
      selectByKey plat e rows = [r0] →
      selectByKey plat e (rows.map (applyUpdate p now r0.id)) =
        [applyUpdate p now r0.id r0] := by
  intro rows
  induction rows with
  | nil =>
    intro r0 _ hsel
    exact absurd hsel (by simp [selectByKey])
  | cons hd tl ih =>
    intro r0 hnd hsel
    rw [List.map_cons, List.nodup_cons] at hnd
    have hnd1 : hd.id ∉ tl.map (fun r => r.id) := hnd.1
    have hnd2 : (tl.map (fun r => r.id)).Nodup := hnd.2
    by_cases hm : matchKey plat e hd
    · have hsel2 : hd :: selectByKey plat e tl = [r0] := by
        simpa [selectByKey, List.filter_cons, hm] using hsel
      have hhd : hd = r0 := (List.cons_eq_cons.mp hsel2).1
      have htl : selectByKey plat e tl = [] := (List.cons_eq_cons.mp hsel2).2
      have htlmap : tl.map (applyUpdate p now r0.id) = tl := by
        apply map_eq_self_of
        intro r hr
        apply applyUpdate_of_ne
        intro hid
        apply hnd1
        rw [hhd, ← hid]
        exact List.mem_map.mpr ⟨r, hr, rfl⟩
      have hupdm : matchKey plat e (applyUpdate p now r0.id r0) := by
        rw [applyUpdate_of_eq]
        exact ⟨hp, he⟩
      rw [List.map_cons, hhd, htlmap]
      unfold selectByKey at htl ⊢
      rw [List.filter_cons_of_pos (by simpa using hupdm), htl]
    · have hsel2 : selectByKey plat e tl = [r0] := by
        simpa [selectByKey, List.filter_cons, hm] using hsel
      have hr0tl : r0 ∈ tl := by
        have : r0 ∈ selectByKey plat e tl := by rw [hsel2]; simp
        exact List.mem_of_mem_filter this
      have hne : hd.id ≠ r0.id := by
        intro hid
        apply hnd1
        rw [hid]
        exact List.mem_map.mpr ⟨r0, hr0tl, rfl⟩
      rw [List.map_cons, applyUpdate_of_ne p now r0.id hne]
      unfold selectByKey at ih ⊢
      rw [List.filter_cons_of_neg (by simpa using hm)]
      exact ih r0 hnd2 hsel2

/-- Shape of the insert path of one upsert iteration. -/
theorem upsertOne_insert {α : Type} (plat : String) (now : ℕ) (st : Store α)
    (p : Post α) (h : selectByKey plat p.external_id st.rows = []) :
    upsertOne plat now st p =
      ({ rows := st.rows ++
          [{ id := st.nextId
             platform := p.platform
             external_id := p.external_id
             payload := p.payload
             created_at := now
             updated_at := now
             last_synced_at := now }]
         nextId := st.nextId + 1 }, true) := by
  unfold upsertOne
  rw [h]

/-- Shape of the update path of one upsert iteration. -/
theorem upsertOne_update {α : Type} (plat : String) (now : ℕ) (st : Store α)
    (p : Post α) (r0 : StoredRow α) (rest : List (StoredRow α))
    (h : selectByKey plat p.external_id st.rows = r0 :: rest) :
    upsertOne plat now st p =
      ({ rows := st.rows.map (applyUpdate p now r0.id), nextId := st.nextId },
        false) := by
  unfold upsertOne
  rw [h]

/-- A one-listing batch on the success path performs exactly one upsert and
reports it as added or updated according to the path taken. -/
theorem save_singleton {α : Type} (plat : String) (now : ℕ) (p : Post α)
    (st : Store α) :
    save_listings_to_db plat noFail now [p] st =
      ((upsertOne plat now st p).1,
        if (upsertOne plat now st p).2 then ⟨1, 0, 0⟩ else ⟨0, 1, 0⟩) := by
  unfold save_listings_to_db noFail
  by_cases h : (upsertOne plat now st p).2 <;>
    simp [saveAux, h]

/-- Second ingestion against a store whose key query returns exactly one
row: the update path is taken, the key still selects exactly one row, and
that row carries the fields of the second ingestion. -/
theorem c1_second_pass {α : Type} (plat : String) (p2 : Post α) (t2 : ℕ)
    (st1 : Store α) (σ : StoredRow α) (hp2 : p2.platform = plat)
    (hσ : selectByKey plat p2.external_id st1.rows = [σ])
    (hnd1 : (st1.rows.map (fun r => r.id)).Nodup) :
    (selectByKey plat p2.external_id
        (save_listings_to_db plat noFail t2 [p2] st1).1.rows).length = 1 ∧
      (save_listings_to_db plat noFail t2 [p2] st1).2 = ⟨0, 1, 0⟩ ∧
      ∀ r ∈ selectByKey plat p2.external_id
          (save_listings_to_db plat noFail t2 [p2] st1).1.rows,
        r.payload = p2.payload ∧ r.updated_at = t2 ∧ r.last_synced_at = t2 := by
  have h2 := upsertOne_update plat t2 st1 p2 σ [] hσ
  have hsave2 := save_singleton plat t2 p2 st1
  rw [h2] at hsave2
  rw [hsave2]
  have hsel2 := selectByKey_update plat p2.external_id p2 t2 hp2 rfl
    st1.rows σ hnd1 hσ
  refine ⟨?_, by simp, ?_⟩
  · simp only [hsel2]
    rfl
  · intro r hr
    simp only [hsel2] at hr
    have : r = applyUpdate p2 t2 σ.id σ := by simpa using hr
    subst this
    rw [applyUpdate_of_eq]
    exact ⟨rfl, rfl, rfl⟩

/-- Claim C1: ingesting a listing twice with the same (platform,
external_id) through the batch save operation leaves exactly one row for
that key — provided the store respects the key-uniqueness invariant (at
most one row for the key, distinct fresh primary keys) — the second pass
takes the update path and not the insert path (counts `{added 0, updated 1,
errors 0}`), and the surviving row carries the fields of the second
ingestion with its timestamps restamped. -/
theorem c1_upsert_idempotent {α : Type} (plat : String) (p1 p2 : Post α) (st : Store α) (t1 t2 : ℕ)
    (hp1 : p1.platform = plat) (hp2 : p2.platform = plat)
    (heid : p1.external_id = p2.external_id)
    (hids : (st.rows.map (fun r => r.id)).Nodup)
    (hfresh : ∀ r ∈ st.rows, r.id < st.nextId)
    (hkey : (selectByKey plat p1.external_id st.rows).length ≤ 1) :
    (selectByKey plat p2.external_id
        (save_listings_to_db plat noFail t2 [p2]
          (save_listings_to_db plat noFail t1 [p1] st).1).1.rows).length = 1 ∧
      (save_listings_to_db plat noFail t2 [p2]
        (save_listings_to_db plat noFail t1 [p1] st).1).2 = ⟨0, 1, 0⟩ ∧
      ∀ r ∈ selectByKey plat p2.external_id
          (save_listings_to_db plat noFail t2 [p2]
            (save_listings_to_db plat noFail t1 [p1] st).1).1.rows,
        r.payload = p2.payload ∧ r.updated_at = t2 ∧ r.last_synced_at = t2 := by
  rcases hsel : selectByKey plat p1.external_id st.rows with _ | ⟨r0, rest⟩
  · -- first pass inserts a fresh row
    have h1 := upsertOne_insert plat t1 st p1 hsel
    have hsave1 := save_singleton plat t1 p1 st
    rw [h1] at hsave1
    set ρ : StoredRow α :=
      { id := st.nextId
        platform := p1.platform
        external_id := p1.external_id
        payload := p1.payload
        created_at := t1
        updated_at := t1
        last_synced_at := t1 } with hρ
    set st1 : Store α := ⟨st.rows ++ [ρ], st.nextId + 1⟩ with hst1def
    have hst1 : (save_listings_to_db plat noFail t1 [p1] st).1 = st1 := by
      rw [hsave1]
    have hselst1 : selectByKey plat p2.external_id st1.rows = [ρ] := by
      show selectByKey plat p2.external_id (st.rows ++ [ρ]) = [ρ]
      unfold selectByKey at hsel ⊢
      rw [← heid, List.filter_append, hsel]
      simp [matchKey, hρ, hp1]
    have hnd1 : (st1.rows.map (fun r => r.id)).Nodup := by
      show ((st.rows ++ [ρ]).map (fun r => r.id)).Nodup
      rw [List.map_append, List.nodup_append]
      refine ⟨hids, by simp, ?_⟩
      intro a ha hb
      simp only [List.map_cons, List.map_nil, List.mem_singleton, hρ] at hb
      subst hb
      rcases List.mem_map.mp ha with ⟨r, hr, hrid⟩
      have := hfresh r hr
      omega
    rw [hst1]
    exact c1_second_pass plat p2 t2 st1 ρ hp2 hselst1 hnd1
  · -- first pass updates the single existing row
    have hrest : rest = [] := by
      rw [hsel] at hkey
      have hlen : rest.length = 0 := by
        simp only [List.length_cons] at hkey
        omega
      exact List.length_eq_zero.mp hlen
    subst hrest
    have h1 := upsertOne_update plat t1 st p1 r0 [] hsel
    have hsave1 := save_singleton plat t1 p1 st
    rw [h1] at hsave1
    set st1 : Store α := ⟨st.rows.map (applyUpdate p1 t1 r0.id), st.nextId⟩
      with hst1def
    have hst1 : (save_listings_to_db plat noFail t1 [p1] st).1 = st1 := by
      rw [hsave1]
    have hselst1 : selectByKey plat p2.external_id st1.rows =
        [applyUpdate p1 t1 r0.id r0] := by
      show selectByKey plat p2.external_id
        (st.rows.map (applyUpdate p1 t1 r0.id)) = _
      rw [← heid]
      exact selectByKey_update plat p1.external_id p1 t1 hp1 rfl
        st.rows r0 hids hsel
    have hnd1 : (st1.rows.map (fun r => r.id)).Nodup := by
      show ((st.rows.map (applyUpdate p1 t1 r0.id)).map (fun r => r.id)).Nodup
      rw [applyUpdate_ids]
      exact hids
    rw [hst1]
    exact c1_second_pass plat p2 t2 st1 _ hp2 hselst1 hnd1

/-- Witness for `c1_upsert_idempotent`: the same eBay external id ingested
twice into an empty store with two different payloads. -/
theorem c1_upsert_idempotent_witness :
    (selectByKey "ebay" "x1"
        (save_listings_to_db "ebay" noFail 2 [Post.mk "ebay" "x1" (9 : ℕ)]
          (save_listings_to_db "ebay" noFail 1 [Post.mk "ebay" "x1" (7 : ℕ)]
            (Store.mk [] 0)).1).1.rows).length = 1 ∧
      (save_listings_to_db "ebay" noFail 2 [Post.mk "ebay" "x1" (9 : ℕ)]
        (save_listings_to_db "ebay" noFail 1 [Post.mk "ebay" "x1" (7 : ℕ)]
          (Store.mk [] 0)).1).2 = ⟨0, 1, 0⟩ :=
  ⟨(c1_upsert_idempotent "ebay" (Post.mk "ebay" "x1" 7) (Post.mk "ebay" "x1" 9)
      (Store.mk [] 0) 1 2 rfl rfl rfl (by decide) (by decide) (by decide)).1,
   (c1_upsert_idempotent "ebay" (Post.mk "ebay" "x1" 7) (Post.mk "ebay" "x1" 9)
      (Store.mk [] 0) 1 2 rfl rfl rfl (by decide) (by decide) (by decide)).2.1⟩

/-- Specification-side predicate: the text begins with a dollar sign
followed by optional whitespace and at least one digit — the start of a
`$`-prefixed number. -/
def startsDollarNum (cs : List Char) : Prop :=
  ∃ ws d rest, cs = '$' :: (ws ++ d :: rest) ∧ (∀ c ∈ ws, isWs c = true) ∧
    isDig d = true

/-- Specification-side predicate: the text contains a `$`-prefixed number
somewhere. -/
def hasDollarNum (t : List Char) : Prop :=
  ∃ pre rest, t = pre ++ rest ∧ startsDollarNum rest

/-- Digits are not whitespace. -/
theorem isDig_not_isWs {d : Char} (h : isDig d = true) : isWs d = false := by
  unfold isWs
  have h1 : d ≠ ' ' := by rintro rfl; exact absurd h (by decide)
  have h2 : d ≠ '\t' := by rintro rfl; exact absurd h (by decide)
  have h3 : d ≠ '\n' := by rintro rfl; exact absurd h (by decide)
  have h4 : d ≠ '\r' := by rintro rfl; exact absurd h (by decide)
  have h5 : d ≠ '\x0b' := by rintro rfl; exact absurd h (by decide)
  have h6 : d ≠ '\x0c' := by rintro rfl; exact absurd h (by decide)
  simp [h1, h2, h3, h4, h5, h6]

/-- The whitespace skip of the pattern passes over an all-whitespace
prefix. -/
theorem dropWhile_ws_append (l : List Char) : ∀ ws : List Char,
    (∀ c ∈ ws, isWs c = true) →
    List.dropWhile (fun c => isWs c) (ws ++ l) =
      List.dropWhile (fun c => isWs c) l := by
  intro ws
  induction ws with
  | nil => intro _; rfl
  | cons c cs ih =>
    intro h
    rw [List.cons_append, List.dropWhile_cons_of_pos (by simpa using h c (by simp))]
    exact ih fun a ha => h a (List.mem_cons_of_mem _ ha)

/-- A digit budget of zero consumes nothing. -/
theorem takeDigits_zero (cs : List Char) : takeDigits 0 cs = ([], cs) := by
  cases cs <;> rfl

/-- The digit run is empty exactly when the text does not start with a
digit. -/
theorem takeDigits_empty_iff (n : ℕ) (cs : List Char) :
    (takeDigits (n + 1) cs).1 = [] ↔ ∀ d rest, cs = d :: rest → isDig d = false := by
  cases cs with
  | nil => simp [takeDigits]
  | cons c cs =>
    rcases hd : isDig c with _ | _
    · simp [takeDigits, hd]
    · simp only [takeDigits, hd, if_true]
      constructor
      · intro h; exact absurd h (by simp)
      · intro h
        have := h c cs rfl
        rw [hd] at this
        exact absurd this (by simp)

/-- A non-empty digit run means the text starts with a digit. -/
theorem takeDigits_nonempty {n : ℕ} {cs : List Char}
    (h : (takeDigits (n + 1) cs).1 ≠ []) :
    ∃ d rest, cs = d :: rest ∧ isDig d = true := by
  cases cs with
  | nil => exact absurd (by simp [takeDigits]) h
  | cons c cs =>
    rcases hd : isDig c with _ | _
    · exact absurd (by simp [takeDigits, hd]) h
    · exact ⟨c, cs, rfl, hd⟩

/-- A text beginning with a dollar sign starts a `$`-prefixed number exactly
when a digit survives the whitespace skip. -/
theorem startsDollarNum_cons_iff (cs : List Char) :
    startsDollarNum ('$' :: cs) ↔
      ∃ d rest, List.dropWhile (fun c => isWs c) cs = d :: rest ∧ isDig d = true := by
  constructor
  · rintro ⟨ws, d, rest, heq, hws, hd⟩
    injection heq with _ heq
    subst heq
    refine ⟨d, rest, ?_, hd⟩
    rw [dropWhile_ws_append _ ws hws,
      List.dropWhile_cons_of_neg (by simp [isDig_not_isWs hd])]
  · rintro ⟨d, rest, hdrop, hd⟩
    refine ⟨List.takeWhile (fun c => isWs c) cs, d, rest, ?_, ?_, hd⟩
    · rw [← hdrop, List.takeWhile_append_dropWhile]
    · intro c hc
      simpa using List.mem_takeWhile_imp hc

/-- The regex fails at a position exactly when no `$`-prefixed number starts
there. -/
theorem matchPriceAt_none_iff (cs : List Char) :
    matchPriceAt cs = none ↔ ¬ startsDollarNum cs := by
  rcases cs with _ | ⟨c, cs⟩
  · constructor
    · rintro _ ⟨ws, d, rest, heq, _, _⟩
      exact absurd heq (by simp)
    · intro _; rfl
  · by_cases hc : c = '$'
    · subst hc
      rw [startsDollarNum_cons_iff]
      show (if (takeDigits 3 (List.dropWhile (fun c => isWs c) cs)).1.isEmpty
        then none else some _) = none ↔ _
      rcases hemp : (takeDigits 3 (List.dropWhile (fun c => isWs c) cs)).1.isEmpty
        with _ | _
      · rw [if_neg (by simp)]
        have hne : (takeDigits 3 (List.dropWhile (fun c => isWs c) cs)).1 ≠ [] := by
          intro hx
          rw [hx] at hemp
          simp at hemp
        rcases takeDigits_nonempty hne with ⟨d, rest, hdr, hd⟩
        constructor
        · intro h; exact absurd h (by simp)
        · intro hn; exact absurd ⟨d, rest, hdr, hd⟩ hn
      · rw [if_pos rfl]
        rw [List.isEmpty_iff] at hemp
        rw [takeDigits_empty_iff] at hemp
        constructor
        · rintro _ ⟨d, rest, hdrop, hd⟩
          rw [hemp d rest hdrop] at hd
          exact absurd hd (by simp)
        · intro _; rfl
    · constructor
      · rintro _ ⟨ws, d, rest, heq, _, _⟩
        injection heq with h1 _
        exact hc h1
      · intro _
        rw [matchPriceAt.eq_def]
        split
        · rename_i heq
          injection heq with h1 _
          exact absurd h1 hc
        · rfl

/-- Decomposition of containment at a cons. -/
theorem hasDollarNum_cons (c : Char) (cs : List Char) :
    hasDollarNum (c :: cs) ↔ startsDollarNum (c :: cs) ∨ hasDollarNum cs := by
  constructor
  · rintro ⟨pre, rest, heq, hst⟩
    cases pre with
    | nil =>
      left
      have : rest = c :: cs := by simpa using heq.symm
      rw [← this]
      exact hst
    | cons x xs =>
      injection heq with h1 h2
      right
      exact ⟨xs, rest, h2, hst⟩
  · rintro (h | ⟨pre, rest, heq, hst⟩)
    · exact ⟨[], c :: cs, rfl, h⟩
    · exact ⟨c :: pre, rest, by rw [heq, List.cons_append], hst⟩

/-- The scan of `re.findall` finds no capture exactly when the text contains
no `$`-prefixed number. -/
theorem findPrice_none_iff (t : List Char) :
    findPrice t = none ↔ ¬ hasDollarNum t := by
  induction t with
  | nil =>
    constructor
    · rintro _ ⟨pre, rest, heq, ⟨ws, d, r, hr, _, _⟩⟩
      rw [(List.append_eq_nil.mp heq.symm).2] at hr
      exact absurd hr (by simp)
    · intro _; rfl
  | cons c cs ih =>
    rcases hm : matchPriceAt (c :: cs) with _ | cap
    · have hstep : findPrice (c :: cs) = findPrice cs := by
        simp [findPrice, hm]
      have hns := (matchPriceAt_none_iff _).mp hm
      rw [hstep, ih, hasDollarNum_cons, not_or]
      exact ⟨fun h => ⟨hns, h⟩, fun h => h.2⟩
    · have hstep : findPrice (c :: cs) = some cap := by
        simp [findPrice, hm]
      have hst : startsDollarNum (c :: cs) := by
        by_contra hn
        rw [← matchPriceAt_none_iff] at hn
        rw [hm] at hn
        exact absurd hn (by simp)
      rw [hstep]
      constructor
      · intro h; exact absurd h (by simp)
      · intro hn
        exact absurd ((hasDollarNum_cons c cs).mpr (Or.inl hst)) hn

/-- No-match half of the extraction contract. -/
theorem extract_price_none_iff (t : List Char) :
    extract_price t = none ↔ ¬ hasDollarNum t := by
  rw [← findPrice_none_iff]
  unfold extract_price
  rcases h : findPrice t with _ | cap <;> simp [h]

/-- Specification-side form of the comma groups of the capture: a
concatenation of comma-plus-three-digit groups. -/
inductive GroupsForm : List Char → Prop
  | nil : GroupsForm []
  | cons (d1 d2 d3 : Char) (rest : List Char) :
      isDig d1 = true → isDig d2 = true → isDig d3 = true →
      GroupsForm rest → GroupsForm (',' :: d1 :: d2 :: d3 :: rest)

/-- Specification-side form of the optional fraction of the capture: empty,
or a dot followed by exactly two digits. -/
def FracForm (fr : List Char) : Prop :=
  fr = [] ∨ ∃ a b, fr = ['.', a, b] ∧ isDig a = true ∧ isDig b = true

/-- Specification-side predicate: the text begins with a comma group. -/
def startsGroup (s : List Char) : Prop :=
  ∃ d1 d2 d3 r, s = ',' :: d1 :: d2 :: d3 :: r ∧ isDig d1 = true ∧
    isDig d2 = true ∧ isDig d3 = true

/-- Specification-side predicate: the text begins with a two-digit
fraction. -/
def startsFrac (s : List Char) : Prop :=
  ∃ a b r, s = '.' :: a :: b :: r ∧ isDig a = true ∧ isDig b = true

/-- Specification-side predicate: the text begins with a digit. -/
def headDig (s : List Char) : Prop := ∃ d r, s = d :: r ∧ isDig d = true

/-- Value of the optional fraction of a capture. -/
def fracValue : List Char → ℚ
  | '.' :: a :: b :: [] => (digitsVal [a, b] : ℚ) / 100
  | _ => 0

/-- Specification-side numeric value of a capture split into its integer
digits, comma groups and fraction: the digits with commas stripped, plus the
fraction in hundredths. -/
def capValue (g0 gs fr : List Char) : ℚ :=
  (digitsVal (g0 ++ gs.filter (fun c => c ≠ ',')) : ℚ) + fracValue fr

/-- Digits never start a text without a leading digit. -/
theorem takeDigits_no {n : ℕ} {rest : List Char} (h : ¬ headDig rest) :
    takeDigits (n + 1) rest = ([], rest) := by
  cases rest with
  | nil => rfl
  | cons c cs =>
    rcases hd : isDig c with _ | _
    · simp [takeDigits, hd]
    · exact absurd ⟨c, cs, rfl, hd⟩ h

/-- Greedy digit consumption takes exactly the digit block when it has at
most three digits and cannot be extended. -/
theorem takeDigits_exact {g0 rest : List Char}
    (hg : ∀ c ∈ g0, isDig c = true) (hg1 : g0 ≠ []) (hg3 : g0.length ≤ 3)
    (hmax : g0.length = 3 ∨ ¬ headDig rest) :
    takeDigits 3 (g0 ++ rest) = (g0, rest) := by
  rcases g0 with _ | ⟨a, g1⟩
  · exact absurd rfl hg1
  rcases g1 with _ | ⟨b, g2⟩
  · have ha := hg a (by simp)
    have hnd : ¬ headDig rest := by
      rcases hmax with h3 | h
      · exact absurd h3 (by simp)
      · exact h
    simp [takeDigits, ha, takeDigits_no hnd]
  rcases g2 with _ | ⟨c, g3⟩
  · have ha := hg a (by simp)
    have hb := hg b (by simp)
    have hnd : ¬ headDig rest := by
      rcases hmax with h3 | h
      · exact absurd h3 (by simp)
      · exact h
    simp [takeDigits, ha, hb, takeDigits_no hnd]
  rcases g3 with _ | ⟨d, g4⟩
  · have ha := hg a (by simp)
    have hb := hg b (by simp)
    have hc := hg c (by simp)
    simp [takeDigits, ha, hb, hc, takeDigits_zero]
  · exact absurd hg3 (by simp)

/-- Greedy group consumption takes nothing when no comma group starts the
text. -/
theorem takeGroups_no {l : List Char} (h : ¬ startsGroup l) :
    takeGroups l = ([], l) := by
  rw [takeGroups.eq_def]
  split
  · rename_i c1 c2 c3 cs
    rcases hd : (isDig c1 && isDig c2 && isDig c3) with _ | _
    · simp [hd]
    · exfalso
      apply h
      simp only [Bool.and_eq_true] at hd
      exact ⟨c1, c2, c3, cs, rfl, hd.1.1, hd.1.2, hd.2⟩
  · rfl

/-- Greedy group consumption takes exactly the comma groups when no further
group follows them. -/
theorem takeGroups_exact {gs : List Char} (hgs : GroupsForm gs) :
    ∀ tail : List Char, ¬ startsGroup tail →
      takeGroups (gs ++ tail) = (gs, tail) := by
  induction hgs with
  | nil =>
    intro tail htail
    rw [List.nil_append]
    exact takeGroups_no htail
  | cons d1 d2 d3 rest h1 h2 h3 hrest ih =>
    intro tail htail
    show takeGroups (',' :: d1 :: d2 :: d3 :: (rest ++ tail)) = _
    rw [takeGroups.eq_def]
    simp only [h1, h2, h3, Bool.and_self, if_true]
    rw [ih tail htail]

/-- Greedy fraction consumption takes nothing when no fraction starts the
text. -/
theorem takeFrac_no {l : List Char} (h : ¬ startsFrac l) :
    takeFrac l = ([], l) := by
  rw [takeFrac.eq_def]
  split
  · rename_i c1 c2 cs
    rcases hd : (isDig c1 && isDig c2) with _ | _
    · simp [hd]
    · exfalso
      apply h
      simp only [Bool.and_eq_true] at hd
      exact ⟨c1, c2, cs, rfl, hd.1, hd.2⟩
  · rfl

/-- Greedy fraction consumption takes exactly a two-digit fraction. -/
theorem takeFrac_some {a b : Char} (ha : isDig a = true) (hb : isDig b = true)
    (suf : List Char) : takeFrac ('.' :: a :: b :: suf) = (['.', a, b], suf) := by
  simp [takeFrac, ha, hb]

/-- Reduction of the matcher at a dollar sign. -/
theorem matchPriceAt_cons_dollar (cs : List Char) :
    matchPriceAt ('$' :: cs) =
      (if (takeDigits 3 (List.dropWhile (fun c => isWs c) cs)).1.isEmpty then none
       else some ((takeDigits 3 (List.dropWhile (fun c => isWs c) cs)).1 ++
         (takeGroups (takeDigits 3 (List.dropWhile (fun c => isWs c) cs)).2).1 ++
         (takeFrac (takeGroups
           (takeDigits 3 (List.dropWhile (fun c => isWs c) cs)).2).2).1)) := rfl

/-- The matcher applied exactly at a well-formed, maximal capture returns
that capture. -/
theorem matchPriceAt_exact {ws g0 gs fr suf : List Char}
    (hws : ∀ c ∈ ws, isWs c = true)
    (hg : ∀ c ∈ g0, isDig c = true) (hg1 : g0 ≠ []) (hg3 : g0.length ≤ 3)
    (hgs : GroupsForm gs) (hfr : FracForm fr)
    (hmax1 : g0.length = 3 ∨ gs ≠ [] ∨ fr ≠ [] ∨ ¬ headDig suf)
    (hmax2 : fr ≠ [] ∨ ¬ startsGroup suf)
    (hmax3 : fr = [] → ¬ startsFrac suf) :
    matchPriceAt ('$' :: (ws ++ (g0 ++ (gs ++ (fr ++ suf))))) =
      some (g0 ++ gs ++ fr) := by
  have hdropall : List.dropWhile (fun c => isWs c)
      (ws ++ (g0 ++ (gs ++ (fr ++ suf)))) = g0 ++ (gs ++ (fr ++ suf)) := by
    rw [dropWhile_ws_append _ ws hws]
    rcases g0 with _ | ⟨d, g0t⟩
    · exact absurd rfl hg1
    · rw [List.cons_append]
      exact List.dropWhile_cons_of_neg
        (by simp [isDig_not_isWs (hg d (by simp))])
  have hmax1a : g0.length = 3 ∨ ¬ headDig (gs ++ (fr ++ suf)) := by
    by_cases hgse : gs = []
    · subst hgse
      rcases hfr with hfre | ⟨a, b, hfre, ha, hb⟩
      · subst hfre
        rcases hmax1 with h | h | h | h
        · exact Or.inl h
        · exact absurd rfl h
        · exact absurd rfl h
        · exact Or.inr (by simpa using h)
      · subst hfre
        right
        rintro ⟨d, r, hdr, hd⟩
        simp only [List.nil_append, List.cons_append] at hdr
        injection hdr with h1 _
        rw [← h1] at hd
        exact absurd hd (by decide)
    · rcases hgs with _ | ⟨d1, d2, d3, rest, h1, h2, h3, hrest⟩
      · exact absurd rfl hgse
      · right
        rintro ⟨d, r, hdr, hd⟩
        simp only [List.cons_append] at hdr
        injection hdr with h1 _
        rw [← h1] at hd
        exact absurd hd (by decide)
  have hgrpcond : ¬ startsGroup (fr ++ suf) := by
    rcases hfr with hfre | ⟨a, b, hfre, ha, hb⟩
    · subst hfre
      rcases hmax2 with h | h
      · exact absurd rfl h
      · simpa using h
    · subst hfre
      rintro ⟨d1, d2, d3, r, hdr, _⟩
      simp only [List.cons_append] at hdr
      injection hdr with h1 _
      exact absurd h1.symm (by decide)
  have hfraccond : takeFrac (fr ++ suf) = (fr, suf) := by
    rcases hfr with hfre | ⟨a, b, hfre, ha, hb⟩
    · subst hfre
      rw [List.nil_append]
      exact takeFrac_no (hmax3 rfl)
    · subst hfre
      exact takeFrac_some ha hb suf
  rw [matchPriceAt_cons_dollar, hdropall,
    takeDigits_exact hg hg1 hg3 hmax1a]
  simp only [takeGroups_exact hgs (fr ++ suf) hgrpcond, hfraccond]
  rw [if_neg (by simpa [List.isEmpty_iff] using hg1)]

/-- The scan skips a region in which no `$`-prefixed number starts. -/
theorem findPrice_skip : ∀ (pre s : List Char),
    (∀ i, i < pre.length → ¬ startsDollarNum ((pre ++ s).drop i)) →
    findPrice (pre ++ s) = findPrice s := by
  intro pre
  induction pre with
  | nil => intro s _; rfl
  | cons c pre ih =>
    intro s h
    have h0 : ¬ startsDollarNum (c :: (pre ++ s)) := by
      simpa using h 0 (by simp)
    have hm : matchPriceAt (c :: (pre ++ s)) = none :=
      (matchPriceAt_none_iff _).mpr h0
    have hstep : findPrice ((c :: pre) ++ s) = findPrice (pre ++ s) := by
      simp [findPrice, List.cons_append, hm]
    rw [hstep]
    apply ih
    intro i hi
    have := h (i + 1) (by simpa using Nat.succ_lt_succ hi)
    simpa using this

/-- Digits are not the dot. -/
theorem isDig_ne_dot {c : Char} (h : isDig c = true) : c ≠ '.' := by
  rintro rfl; exact absurd h (by decide)

/-- Digits are not the comma. -/
theorem isDig_ne_comma {c : Char} (h : isDig c = true) : c ≠ ',' := by
  rintro rfl; exact absurd h (by decide)

/-- Stripping commas from the comma groups leaves their digits. -/
theorem groups_filter_digits {gs : List Char} (hgs : GroupsForm gs) :
    ∀ c ∈ gs.filter (fun c => c ≠ ','), isDig c = true := by
  induction hgs with
  | nil => intro c hc; exact absurd hc (by simp)
  | cons d1 d2 d3 rest h1 h2 h3 hrest ih =>
    intro c hc
    simp only [List.filter_cons] at hc
    rw [if_neg (by simp), if_pos (by simp [isDig_ne_comma h1]),
      if_pos (by simp [isDig_ne_comma h2]),
      if_pos (by simp [isDig_ne_comma h3])] at hc
    rcases List.mem_cons.mp hc with rfl | hc2
    · exact h1
    rcases List.mem_cons.mp hc2 with rfl | hc3
    · exact h2
    rcases List.mem_cons.mp hc3 with rfl | hc4
    · exact h3
    · exact ih c hc4

/-- The dot-separating scan passes over an all-digit prefix. -/
theorem splitDot_digits_append (l2 : List Char) : ∀ l1 : List Char,
    (∀ c ∈ l1, isDig c = true) →
    List.takeWhile (fun c => c ≠ '.') (l1 ++ l2) =
        l1 ++ List.takeWhile (fun c => c ≠ '.') l2 ∧
      List.dropWhile (fun c => c ≠ '.') (l1 ++ l2) =
        List.dropWhile (fun c => c ≠ '.') l2 := by
  intro l1
  induction l1 with
  | nil => intro _; exact ⟨rfl, rfl⟩
  | cons c l1 ih =>
    intro h
    have hc : isDig c = true := h c (by simp)
    have hrest := ih fun a ha => h a (List.mem_cons_of_mem _ ha)
    constructor
    · rw [List.cons_append,
        List.takeWhile_cons_of_pos (by simp [isDig_ne_dot hc]),
        hrest.1, List.cons_append]
    · rw [List.cons_append,
        List.dropWhile_cons_of_pos (by simp [isDig_ne_dot hc]), hrest.2]

/-- Reduction of the capture parse into its comma-strip and dot-split. -/
theorem parsePrice_def (cs : List Char) :
    parsePrice cs =
      (match (cs.filter (fun c => c ≠ ',')).dropWhile (fun c => c ≠ '.') with
       | '.' :: fr =>
         ((digitsVal ((cs.filter (fun c => c ≠ ',')).takeWhile
             (fun c => c ≠ '.')) : ℚ) +
           (digitsVal fr : ℚ) / ((10 : ℚ) ^ fr.length))
       | _ => (digitsVal ((cs.filter (fun c => c ≠ ',')).takeWhile
           (fun c => c ≠ '.')) : ℚ)) := rfl

/-- An all-digit list has no dot. -/
theorem splitDot_digits (l1 : List Char) (h : ∀ c ∈ l1, isDig c = true) :
    List.takeWhile (fun c => c ≠ '.') l1 = l1 ∧
      List.dropWhile (fun c => c ≠ '.') l1 = [] := by
  have := splitDot_digits_append [] l1 h
  simpa using this

/-- The parse of a well-formed capture is its specification-side value. -/
theorem parsePrice_capture {g0 gs fr : List Char}
    (hg : ∀ c ∈ g0, isDig c = true) (hgs : GroupsForm gs) (hfr : FracForm fr) :
    parsePrice (g0 ++ gs ++ fr) = capValue g0 gs fr := by
  have hDg : ∀ c ∈ g0 ++ gs.filter (fun c => c ≠ ','), isDig c = true := by
    intro c hc
    rcases List.mem_append.mp hc with h | h
    · exact hg c h
    · exact groups_filter_digits hgs c h
  have hfg0 : g0.filter (fun c => c ≠ ',') = g0 :=
    List.filter_eq_self.mpr fun c hc => by simp [isDig_ne_comma (hg c hc)]
  rcases hfr with hfre | ⟨a, b, hfre, ha, hb⟩
  · subst hfre
    have hfilter : (g0 ++ gs ++ ([] : List Char)).filter (fun c => c ≠ ',') =
        g0 ++ gs.filter (fun c => c ≠ ',') := by
      rw [List.append_nil, List.filter_append, hfg0]
    rw [parsePrice_def, hfilter, (splitDot_digits _ hDg).1,
      (splitDot_digits _ hDg).2]
    show (digitsVal (g0 ++ gs.filter (fun c => c ≠ ',')) : ℚ) = _
    simp [capValue, fracValue]
  · subst hfre
    have hfilter : (g0 ++ gs ++ ['.', a, b]).filter (fun c => c ≠ ',') =
        (g0 ++ gs.filter (fun c => c ≠ ',')) ++ ['.', a, b] := by
      rw [List.filter_append, List.filter_append, hfg0]
      congr 1
      simp [List.filter_cons, isDig_ne_comma ha, isDig_ne_comma hb]
    have hsp := splitDot_digits_append ['.', a, b] _ hDg
    rw [parsePrice_def, hfilter, hsp.1, hsp.2,
      List.takeWhile_cons_of_neg (by simp), List.dropWhile_cons_of_neg (by simp),
      List.append_nil]
    show (digitsVal (g0 ++ gs.filter (fun c => c ≠ ',')) : ℚ) +
        (digitsVal [a, b] : ℚ) / ((10 : ℚ) ^ ([a, b].length)) = _
    unfold capValue
    have hfv : fracValue ['.', a, b] = (digitsVal [a, b] : ℚ) / 100 := rfl
    rw [hfv]
    norm_num

/-- Claim C4: the price extraction contract.  First conjunct: extraction
returns null exactly when the text contains no `$`-prefixed number (a dollar
sign followed, after optional whitespace, by a digit).  Second conjunct: on
a text whose first `$`-prefixed number is a full match of the price pattern
(one to three digits, optional comma-separated three-digit groups, optional
two-decimal fraction, each part maximal at its position), extraction returns
the numeric value of that first match with commas stripped. -/
theorem c4_price_extraction :
    (∀ t : List Char, extract_price t = none ↔ ¬ hasDollarNum t) ∧
      ∀ pre ws g0 gs fr suf : List Char,
        (∀ i, i < pre.length →
          ¬ startsDollarNum
            ((pre ++ '$' :: (ws ++ (g0 ++ (gs ++ (fr ++ suf))))).drop i)) →
        (∀ c ∈ ws, isWs c = true) →
        (∀ c ∈ g0, isDig c = true) → g0 ≠ [] → g0.length ≤ 3 →
        GroupsForm gs → FracForm fr →
        (g0.length = 3 ∨ gs ≠ [] ∨ fr ≠ [] ∨ ¬ headDig suf) →
        (fr ≠ [] ∨ ¬ startsGroup suf) →
        (fr = [] → ¬ startsFrac suf) →
        extract_price (pre ++ '$' :: (ws ++ (g0 ++ (gs ++ (fr ++ suf))))) =
          some (capValue g0 gs fr) := by
  constructor
  · exact extract_price_none_iff
  · intro pre ws g0 gs fr suf hscan hws hg hg1 hg3 hgs hfr hm1 hm2 hm3
    have hfind : findPrice (pre ++ '$' :: (ws ++ (g0 ++ (gs ++ (fr ++ suf))))) =
        some (g0 ++ gs ++ fr) := by
      rw [findPrice_skip pre _ hscan]
      have hm := matchPriceAt_exact hws hg hg1 hg3 hgs hfr hm1 hm2 hm3
      simp [findPrice, hm]
    unfold extract_price
    rw [hfind]
    show some (parsePrice (g0 ++ gs ++ fr)) = _
    rw [parsePrice_capture hg hgs hfr]

/-- Witness for `c4_price_extraction`: the text `$1,234.56` parses to
1234.56, and a text with no dollar amount yields null. -/
theorem c4_price_extraction_witness :
    extract_price
        ([] ++ '$' ::
          (([] : List Char) ++
            (['1'] ++ ([',', '2', '3', '4'] ++ (['.', '5', '6'] ++ []))))) =
        some (capValue ['1'] [',', '2', '3', '4'] ['.', '5', '6']) ∧
      ¬ hasDollarNum "no price here".toList :=
  ⟨c4_price_extraction.2 [] [] ['1'] [',', '2', '3', '4'] ['.', '5', '6'] []
      (fun i hi => absurd hi (by simp))
      (by decide) (by decide) (by decide) (by decide)
      (GroupsForm.cons '2' '3' '4' [] (by decide) (by decide) (by decide)
        GroupsForm.nil)
      (Or.inr ⟨'5', '6', rfl, by decide, by decide⟩)
      (Or.inr (Or.inl (by decide)))
      (Or.inl (by decide))
      (fun h => absurd h (by decide)),
   (c4_price_extraction.1 "no price here".toList).mp rfl⟩
